import Mathlib

/-!
Verification of the output side-channel protocol of klask (`src/output.rs`).

The program multiplexes plain text and progress-bar update messages over one
text stream.  A message is written as
`MAGIC id MAGIC "progress-bar" MAGIC desc MAGIC value MAGIC "\n"` and the
decoder (`Output::parse`) splits each incoming chunk on `MAGIC`, keeps an
ordered log of `(u64, OutputType)` entries, upserts progress bars by identity
and appends plain-text segments as fresh entries with identity `0`.

Strings are modelled as `List Char` (Rust `str::split(char)` is
character-based).  Rust `u64` identities are `Nat` values; `parseU64` performs
the `< 2^64` overflow check of `u64::from_str` explicitly.  A Rust panic is
modelled by returning `none`.
-/

/-- Model of Rust `f32` values as they occur in this protocol.  A finite value
is identified with the exact rational value of its shortest round-trip decimal
representation (the form `f32::to_string` prints and `f32::from_str` reads
back); the claims under verification never distinguish two `f32` values having
the same shortest decimal representation, nor compare NaN with itself, so this
identification is faithful for them.  `inf`, `negInf` and `nan` mirror the
special values accepted by `f32::from_str`. -/
inductive F32 where
  | finite (q : ℚ)
  | inf
  | negInf
  | nan
deriving DecidableEq, Repr

/-- The ASCII character of a decimal digit, as Rust's integer formatter
produces it (byte `b'0' + d`); reduced mod 10 so the function is total. -/
def digitToChar (n : Nat) : Char := Char.ofNat (48 + n % 10)

/-- Fuel-driven decimal printer for `Nat`, least significant digit last.
Models the digit loop of Rust's `u64` `Display`. -/
def natToStringAux : Nat → Nat → List Char
  | 0, _ => []
  | fuel + 1, n =>
    if n < 10 then [digitToChar n]
    else natToStringAux fuel (n / 10) ++ [digitToChar (n % 10)]

/-- Model of Rust `u64::to_string` (decimal, no sign, no leading zeros). -/
def natToString (n : Nat) : List Char :=
  natToStringAux (n + 1) n

/-- Drop one leading `'+'`, as `u64::from_str` does with its sign handling. -/
def stripPlusSign : List Char → List Char
  | [] => []
  | c :: rest => if c = '+' then rest else c :: rest

/-- Model of Rust `str::parse::<u64>`: an optional leading `'+'`, then a
non-empty run of ASCII digits, rejecting values `≥ 2^64` (overflow). -/
def parseU64 (s : List Char) : Option Nat :=
  if stripPlusSign s ≠ [] ∧ (stripPlusSign s).all Char.isDigit then
    if (stripPlusSign s).foldl (fun a c => a * 10 + (c.toNat - 48)) 0 < 2 ^ 64 then
      some ((stripPlusSign s).foldl (fun a c => a * 10 + (c.toNat - 48)) 0)
    else none
  else none

/-- Digit run value: `foldl` step used by both numeric parsers. -/
def digitStep (a : Nat) (c : Char) : Nat := a * 10 + (c.toNat - 48)

/-- The exact rational value of a run of decimal digits. -/
def digitsVal (ds : List Char) : Nat := ds.foldl digitStep 0

/-- Exponent suffix of the Rust float grammar: the whole remaining input must
be empty or `('e'|'E') ('+'|'-')? Digit+`; the mantissa is scaled by the
(exact) power of ten. -/
def applyExp (m : ℚ) : List Char → Option ℚ
  | [] => some m
  | e :: rest =>
    if e = 'e' ∨ e = 'E' then
      let signed : Bool × List Char := match rest with
        | '-' :: r => (true, r)
        | '+' :: r => (false, r)
        | _ => (false, rest)
      let eds := (signed.2.span Char.isDigit).1
      let tail := (signed.2.span Char.isDigit).2
      if eds = [] ∨ tail ≠ [] then none
      else some (if signed.1 then m / 10 ^ digitsVal eds else m * 10 ^ digitsVal eds)
    else none

/-- Number part of the Rust float grammar:
`Digit+ ('.' Digit*)? Exp?  |  '.' Digit+ Exp?`, valued exactly. -/
def parseNumber (s : List Char) : Option ℚ :=
  let ids := (s.span Char.isDigit).1
  let rest1 := (s.span Char.isDigit).2
  match ids, rest1 with
  | [], '.' :: rest2 =>
    let fds := (rest2.span Char.isDigit).1
    let rest3 := (rest2.span Char.isDigit).2
    if fds = [] then none
    else applyExp ((digitsVal fds : ℚ) / 10 ^ fds.length) rest3
  | [], _ => none
  | ds, '.' :: rest2 =>
    let fds := (rest2.span Char.isDigit).1
    let rest3 := (rest2.span Char.isDigit).2
    applyExp ((digitsVal ds : ℚ) + (digitsVal fds : ℚ) / 10 ^ fds.length) rest3
  | ds, rest => applyExp (digitsVal ds : ℚ) rest

/-- Model of Rust `str::parse::<f32>` at the granularity the protocol needs:
the accepted strings are exactly those of the documented `f32::from_str`
grammar (optional sign; case-insensitive `inf`/`infinity`/`nan`; or a decimal
number with optional exponent), and an accepted finite literal is valued by
its exact decimal value (see `F32`).  Overflow of huge exponents to infinity
is not modelled; no claim depends on it.  A signed NaN is collapsed to `nan`. -/
def parseF32 (s : List Char) : Option F32 :=
  let signed : Bool × List Char := match s with
    | '-' :: rest => (true, rest)
    | '+' :: rest => (false, rest)
    | _ => (false, s)
  let lower := signed.2.map Char.toLower
  if lower = "inf".data ∨ lower = "infinity".data then
    some (if signed.1 then F32.negInf else F32.inf)
  else if lower = "nan".data then some F32.nan
  else
    match parseNumber signed.2 with
    | some q => some (F32.finite (if signed.1 then -q else q))
    | none => none

/-- Fuel-driven printer for the fractional digits of a rational in `[0, 1)`:
repeatedly multiply by ten and emit the integer part, stopping at zero. -/
def fracDigits : Nat → ℚ → List Char
  | 0, _ => []
  | fuel + 1, q =>
    if q = 0 then []
    else
      let q10 := q * 10
      let d := q10.num.natAbs / q10.den
      digitToChar d :: fracDigits fuel (q10 - (d : ℚ))

/-- Decimal printer for rationals with a finite decimal expansion: sign,
integer part, then fractional digits if any.  On the rationals that model
finite `f32` values this is Rust's `f32` `Display` (which never uses exponent
notation). -/
def ratToString (q : ℚ) : List Char :=
  let n := q.num.natAbs
  let ip := n / q.den
  let fr : ℚ := ((n % q.den : Nat) : ℚ) / (q.den : ℚ)
  (if q.num < 0 then ['-'] else []) ++ natToString ip ++
    (if fr = 0 then [] else '.' :: fracDigits 120 fr)

/-- Model of Rust `f32::to_string` (`Display`): shortest decimal for finite
values (see `F32`), and the literal spellings of the special values. -/
def f32ToString : F32 → List Char
  | F32.finite q => ratToString q
  | F32.inf => "inf".data
  | F32.negInf => "-inf".data
  | F32.nan => "NaN".data

/-- `const MAGIC: char = '\u{5FFFE}'` — the reserved delimiter code point. -/
def MAGIC : Char := Char.ofNat 0x5FFFE

/-- Model of Rust `str::split(MAGIC)`: the list of maximal marker-free
segments; `n` markers yield `n + 1` segments, empty ones included. -/
def splitOn (m : Char) : List Char → List (List Char)
  | [] => [[]]
  | c :: rest =>
    if c = m then [] :: splitOn m rest
    else
      match splitOn m rest with
      | [] => [[c]]
      | s :: ss => (c :: s) :: ss

/-- `enum OutputType { Text(String), ProgressBar(String, f32) }`. -/
inductive OutputType where
  | Text (s : List Char)
  | ProgressBar (desc : List Char) (value : F32)
deriving DecidableEq, Repr

/-- `OutputType::PROGRESS_BAR_STR = "progress-bar"`. -/
def OutputType.PROGRESS_BAR_STR : List Char := "progress-bar".data

/-- `struct Output(Vec<(u64, OutputType)>)` — the ordered entry log. -/
abbrev Output := List (Nat × OutputType)

/-- `Output::new()`. -/
def Output.new : Output := []

/-- Models lines 80–84 of `Output::parse`: find the first entry whose
identity equals `id` and overwrite its payload in place, else push at the
end. -/
def Output.upsert : Output → Nat → OutputType → Output
  | [], id, new => [(id, new)]
  | (i, p) :: rest, id, new =>
    if i = id then (i, new) :: rest
    else (i, p) :: Output.upsert rest id new

/-- Models `let text = &text[1..]` on a trailing segment: Rust byte slicing
panics (`none`) when the segment is empty (byte index 1 out of range) or when
its first character occupies more than one byte (index 1 is not a character
boundary); otherwise it drops exactly the first (one-byte) character. -/
def stripNewline (text : List Char) : Option (List Char) :=
  match text with
  | [] => none
  | c :: rest => if c.utf8Size = 1 then some rest else none

/-- Models `if !text.is_empty() { self.0.push((0, Text(text))) }`. -/
def Output.pushText (log : Output) (t : List Char) : Output :=
  if t = [] then log else log ++ [(0, OutputType.Text t)]

/-- Models the `while let Some(id) = iter.next()` loop of `Output::parse`
over the remaining marker-delimited segments, with the iterator state passed
explicitly as the segment list.  The call to `OutputType::parse` is inlined
(Lean structural recursion needs the consumed segments visible as patterns):
`Some("progress-bar")` reads a description (`""` when the iterator is
exhausted) and a value (`0.0` when absent or unparseable); `Some(other)` is
`panic!()` (`none`); `None` yields no message.  The trailing-text block
(`&text[1..]`, push if non-empty) runs after every iteration; `none`
propagates a panic of the byte slicing. -/
def parseLoop (log : Output) : List (List Char) → Option Output
  | [] => some log
  | idSeg :: rest =>
    match parseU64 idSeg with
    | none =>
      match rest with
      | [] => some log
      | text :: rest2 =>
        match stripNewline text with
        | none => none
        | some t => parseLoop (log.pushText t) rest2
    | some id =>
      match rest with
      | [] => some log
      | tag :: rest2 =>
        if tag = OutputType.PROGRESS_BAR_STR then
          match rest2 with
          | [] => some (log.upsert id (OutputType.ProgressBar [] (F32.finite 0)))
          | desc :: rest3 =>
            match rest3 with
            | [] => some (log.upsert id (OutputType.ProgressBar desc (F32.finite 0)))
            | v :: rest4 =>
              let log2 :=
                log.upsert id
                  (OutputType.ProgressBar desc ((parseF32 v).getD (F32.finite 0)))
              match rest4 with
              | [] => some log2
              | text :: rest5 =>
                match stripNewline text with
                | none => none
                | some t => parseLoop (log2.pushText t) rest5
        else none

/-- `Output::parse(&mut self, str)`: split the chunk on `MAGIC`, push the
leading segment as plain text when non-empty, then run the message loop.
`none` models a panic escaping the call. -/
def Output.parse (log : Output) (s : List Char) : Option Output :=
  match splitOn MAGIC s with
  | [] => some log
  | first :: rest =>
    parseLoop (if first = [] then log else log ++ [(0, OutputType.Text first)]) rest

/-- `send_message(data)`: each field prefixed by the marker, then the marker
and the newline of `println!`. -/
def send_message (data : List (List Char)) : List Char :=
  data.foldr (fun d acc => MAGIC :: d ++ acc) [MAGIC, '\n']

/-- `OutputType::send(self, id)`: the characters written to the stream. -/
def OutputType.send : OutputType → Nat → List Char
  | OutputType.Text s, _ => s
  | OutputType.ProgressBar desc value, id =>
    send_message [natToString id, OutputType.PROGRESS_BAR_STR, desc, f32ToString value]

/-- The identities the message loop upserts from a segment list, mirroring the
consumption pattern of `parseLoop` (a specification device for stating which
existing entries a chunk can touch). -/
def loopIds : List (List Char) → List Nat
  | [] => []
  | idSeg :: rest =>
    match parseU64 idSeg with
    | none =>
      match rest with
      | [] => []
      | _ :: rest2 => loopIds rest2
    | some id =>
      match rest with
      | [] => []
      | tag :: rest2 =>
        if tag = OutputType.PROGRESS_BAR_STR then
          match rest2 with
          | [] => [id]
          | _ :: rest3 =>
            match rest3 with
            | [] => [id]
            | _ :: rest4 =>
              match rest4 with
              | [] => [id]
              | _ :: rest5 => id :: loopIds rest5
        else []


/-- The identities a whole chunk can upsert through `Output.parse`. -/
def parseIds (s : List Char) : List Nat :=
  match splitOn MAGIC s with
  | [] => []
  | _ :: rest => loopIds rest

/-! ### Helper lemmas: digits and decimal printing -/

theorem digitToChar_ne_magic (n : Nat) : digitToChar n ≠ MAGIC := by
  have h : n % 10 < 10 := Nat.mod_lt _ (by omega)
  unfold digitToChar
  set d := n % 10 with hd
  interval_cases d <;> decide

theorem digitToChar_isDigit (n : Nat) : (digitToChar n).isDigit = true := by
  have h : n % 10 < 10 := Nat.mod_lt _ (by omega)
  unfold digitToChar
  set d := n % 10 with hd
  interval_cases d <;> decide

theorem digitToChar_toNat (n : Nat) (h : n < 10) :
    (digitToChar n).toNat = 48 + n := by
  unfold digitToChar
  rw [Nat.mod_eq_of_lt h]
  interval_cases n <;> decide

theorem digitToChar_ne_plus (n : Nat) : digitToChar n ≠ '+' := by
  have h : n % 10 < 10 := Nat.mod_lt _ (by omega)
  unfold digitToChar
  set d := n % 10 with hd
  interval_cases d <;> decide

theorem natToStringAux_all_digit (fuel n : Nat) :
    ∀ c ∈ natToStringAux fuel n, c.isDigit = true := by
  induction fuel generalizing n with
  | zero => intro c hc; simp [natToStringAux] at hc
  | succ fuel ih =>
    intro c hc
    unfold natToStringAux at hc
    split at hc
    · simp at hc
      subst hc
      exact digitToChar_isDigit n
    · rcases List.mem_append.mp hc with h | h
      · exact ih _ _ h
      · simp at h
        subst h
        exact digitToChar_isDigit _

theorem natToStringAux_ne_nil (fuel n : Nat) (h : n < fuel) :
    natToStringAux fuel n ≠ [] := by
  cases fuel with
  | zero => omega
  | succ fuel =>
    unfold natToStringAux
    split
    · simp
    · simp

theorem natToStringAux_foldl (fuel : Nat) :
    ∀ n a, n < fuel →
      (natToStringAux fuel n).foldl (fun a c => a * 10 + (c.toNat - 48)) a =
        a * 10 ^ (natToStringAux fuel n).length + n := by
  induction fuel with
  | zero => intro n a h; omega
  | succ fuel ih =>
    intro n a h
    unfold natToStringAux
    split
    · rename_i hn
      simp only [List.foldl, List.length_cons, List.length_nil, Nat.zero_add,
        Nat.pow_one]
      rw [digitToChar_toNat n hn]
      omega
    · rename_i hn
      push_neg at hn
      have hlt : n / 10 < fuel := by
        have h1 : n / 10 < n := Nat.div_lt_self (by omega) (by omega)
        omega
      rw [List.foldl_append, ih (n / 10) a hlt]
      simp only [List.foldl, List.length_append, List.length_cons,
        List.length_nil, Nat.zero_add]
      rw [digitToChar_toNat (n % 10) (Nat.mod_lt _ (by omega))]
      rw [Nat.pow_succ, ← Nat.mul_assoc]
      omega

theorem magic_not_mem_natToString (n : Nat) : MAGIC ∉ natToString n := by
  unfold natToString
  intro hmem
  have := natToStringAux_all_digit (n + 1) n MAGIC hmem
  exact absurd this (by decide)

theorem stripPlusSign_of_head_digit (c : Char) (cs : List Char)
    (h : c.isDigit = true) : stripPlusSign (c :: cs) = c :: cs := by
  simp only [stripPlusSign]
  rw [if_neg]
  intro hc
  rw [hc] at h
  exact absurd h (by decide)

theorem parseU64_natToString (n : Nat) (h : n < 2 ^ 64) :
    parseU64 (natToString n) = some n := by
  have hne : natToString n ≠ [] := natToStringAux_ne_nil (n + 1) n (by omega)
  have hdig : ∀ c ∈ natToString n, c.isDigit = true :=
    natToStringAux_all_digit (n + 1) n
  obtain ⟨c, cs, hcs⟩ : ∃ c cs, natToString n = c :: cs := by
    cases hx : natToString n with
    | nil => exact absurd hx hne
    | cons c cs => exact ⟨c, cs, rfl⟩
  have hstrip : stripPlusSign (natToString n) = natToString n := by
    rw [hcs]
    exact stripPlusSign_of_head_digit c cs (hdig c (hcs ▸ List.mem_cons_self c cs))
  have hfold := natToStringAux_foldl (n + 1) n 0 (by omega)
  simp only [Nat.zero_mul, Nat.zero_add] at hfold
  unfold parseU64
  rw [hstrip]
  rw [if_pos ⟨hne, by
    rw [List.all_eq_true]
    intro x hx
    exact hdig x hx⟩]
  have hfold2 : (natToString n).foldl (fun a c => a * 10 + (c.toNat - 48)) 0 = n := hfold
  rw [hfold2, if_pos h]

theorem parseU64_magic_not_mem (s : List Char) (k : Nat)
    (h : parseU64 s = some k) : MAGIC ∉ s := by
  unfold parseU64 at h
  intro hmem
  split at h
  · rename_i hcond
    have hall := hcond.2
    rw [List.all_eq_true] at hall
    cases s with
    | nil => simp at hmem
    | cons c cs =>
      have hmem2 : MAGIC ∈ stripPlusSign (c :: cs) := by
        simp only [stripPlusSign]
        split
        · rename_i hplus
          rcases List.mem_cons.mp hmem with h1 | h1
          · rw [← h1] at hplus
            exact absurd hplus (by decide)
          · exact h1
        · exact hmem
      have := hall MAGIC hmem2
      exact absurd this (by decide)
  · exact Option.noConfusion h

/-! ### Helper lemmas: splitting on the marker -/

theorem splitOn_ne_nil (m : Char) (s : List Char) : splitOn m s ≠ [] := by
  cases s with
  | nil => simp [splitOn]
  | cons c rest =>
    unfold splitOn
    split
    · simp
    · split
      · simp
      · simp

theorem splitOn_eq_single (m : Char) (s : List Char) (h : m ∉ s) :
    splitOn m s = [s] := by
  induction s with
  | nil => rfl
  | cons c rest ih =>
    have hc : c ≠ m := fun hc => h (by rw [← hc]; exact List.mem_cons_self c rest)
    simp only [splitOn]
    rw [if_neg hc, ih (fun hm => h (List.mem_cons_of_mem c hm))]

theorem splitOn_append (m : Char) (s t : List Char) (h : m ∉ s) :
    splitOn m (s ++ m :: t) = s :: splitOn m t := by
  induction s with
  | nil =>
    simp only [List.nil_append, splitOn]
    rw [if_pos trivial]
  | cons c rest ih =>
    have hc : c ≠ m := fun hc => h (by rw [← hc]; exact List.mem_cons_self c rest)
    simp only [List.cons_append, splitOn, List.append_eq]
    rw [if_neg hc, ih (fun hm => h (List.mem_cons_of_mem c hm))]

/-! ### Helper lemmas: the printers never emit the marker -/

theorem magic_not_mem_fracDigits (fuel : Nat) :
    ∀ q, MAGIC ∉ fracDigits fuel q := by
  induction fuel with
  | zero => intro q; simp [fracDigits]
  | succ fuel ih =>
    intro q
    unfold fracDigits
    split
    · simp
    · intro hmem
      rcases List.mem_cons.mp hmem with h1 | h1
      · exact digitToChar_ne_magic _ h1.symm
      · exact ih _ h1

theorem magic_not_mem_ratToString (q : ℚ) : MAGIC ∉ ratToString q := by
  unfold ratToString
  intro hmem
  rcases List.mem_append.mp hmem with h1 | h1
  · rcases List.mem_append.mp h1 with h2 | h2
    · split at h2
      · simp at h2
        exact absurd h2.symm (by decide)
      · simp at h2
    · exact magic_not_mem_natToString _ h2
  · split at h1
    · simp at h1
    · rcases List.mem_cons.mp h1 with h2 | h2
      · exact absurd h2.symm (by decide)
      · exact magic_not_mem_fracDigits _ _ h2

theorem magic_not_mem_f32ToString (v : F32) : MAGIC ∉ f32ToString v := by
  cases v with
  | finite q => exact magic_not_mem_ratToString q
  | inf => decide
  | negInf => decide
  | nan => decide

/-! ### Helper lemmas: the entry log -/

theorem upsert_of_forall_ne (L : Output) (k : Nat) (x : OutputType)
    (h : ∀ e ∈ L, e.1 ≠ k) : Output.upsert L k x = L ++ [(k, x)] := by
  induction L with
  | nil => rfl
  | cons e rest ih =>
    obtain ⟨i, p⟩ := e
    unfold Output.upsert
    rw [if_neg (h (i, p) (List.mem_cons_self _ _))]
    rw [ih (fun e he => h e (List.mem_cons_of_mem _ he))]
    rfl

theorem upsert_append_singleton (L : Output) (k : Nat) (x y : OutputType)
    (h : ∀ e ∈ L, e.1 ≠ k) :
    Output.upsert (L ++ [(k, x)]) k y = L ++ [(k, y)] := by
  induction L with
  | nil => simp [Output.upsert]
  | cons e rest ih =>
    obtain ⟨i, p⟩ := e
    simp only [List.cons_append]
    unfold Output.upsert
    rw [if_neg (h (i, p) (List.mem_cons_self _ _))]
    rw [ih (fun e he => h e (List.mem_cons_of_mem _ he))]

theorem upsert_getElem? (L : Output) (k : Nat) (x : OutputType) (i : Nat)
    (e : Nat × OutputType) (hne : e.1 ≠ k) (h : L[i]? = some e) :
    (Output.upsert L k x)[i]? = some e := by
  induction L generalizing i with
  | nil => simp at h
  | cons a rest ih =>
    obtain ⟨j, p⟩ := a
    unfold Output.upsert
    split
    · rename_i hj
      cases i with
      | zero =>
        simp at h
        rw [← h] at hne
        simp at hne
        exact absurd hj hne
      | succ i =>
        simp only [List.getElem?_cons_succ] at h ⊢
        exact h
    · cases i with
      | zero =>
        simp at h
        simp [h]
      | succ i =>
        simp only [List.getElem?_cons_succ] at h ⊢
        exact ih i h

theorem getElem?_append_of_some (L M : List (Nat × OutputType)) (i : Nat)
    (e : Nat × OutputType) (h : L[i]? = some e) : (L ++ M)[i]? = some e := by
  have hlt : i < L.length := by
    rcases List.getElem?_eq_some.mp h with ⟨hlt, _⟩
    exact hlt
  rw [List.getElem?_append_left hlt]
  exact h

theorem pushText_getElem? (L : Output) (t : List Char) (i : Nat)
    (e : Nat × OutputType) (h : L[i]? = some e) :
    (L.pushText t)[i]? = some e := by
  unfold Output.pushText
  split
  · exact h
  · exact getElem?_append_of_some L _ i e h

/-! ### Helper lemmas: decoding one wire message -/

theorem splitOn_cons_self (m : Char) (t : List Char) :
    splitOn m (m :: t) = [] :: splitOn m t := by
  simp only [splitOn]
  rw [if_pos trivial]

theorem stripNewline_newline (t : List Char) :
    stripNewline ('\n' :: t) = some t := by
  simp only [stripNewline]
  rw [if_pos (by decide)]

theorem pushText_nil (log : Output) : Output.pushText log [] = log := by
  simp [Output.pushText]

theorem splitOn_send (k : Nat) (d v : List Char)
    (hd : MAGIC ∉ d) (hv : MAGIC ∉ v) :
    splitOn MAGIC (send_message [natToString k, OutputType.PROGRESS_BAR_STR, d, v]) =
      [[], natToString k, OutputType.PROGRESS_BAR_STR, d, v, ['\n']] := by
  simp only [send_message, List.foldr, List.cons_append]
  rw [splitOn_cons_self]
  rw [splitOn_append MAGIC (natToString k) _ (magic_not_mem_natToString k)]
  rw [splitOn_append MAGIC OutputType.PROGRESS_BAR_STR _ (by decide)]
  rw [splitOn_append MAGIC d _ hd]
  rw [show v ++ [MAGIC, '\n'] = v ++ MAGIC :: ['\n'] from rfl]
  rw [splitOn_append MAGIC v _ hv]
  rw [splitOn_eq_single MAGIC ['\n'] (by decide)]

theorem parse_send_pb (L : Output) (k : Nat) (d : List Char) (v : F32)
    (hk : k < 2 ^ 64) (hd : MAGIC ∉ d) :
    Output.parse L ((OutputType.ProgressBar d v).send k) =
      some (L.upsert k (OutputType.ProgressBar d
        ((parseF32 (f32ToString v)).getD (F32.finite 0)))) := by
  unfold OutputType.send
  unfold Output.parse
  rw [splitOn_send k d (f32ToString v) hd (magic_not_mem_f32ToString v)]
  simp only [parseLoop, parseU64_natToString k hk, stripNewline_newline,
    pushText_nil, if_true, reduceIte]

/-- Positions whose identity is not upserted by the remaining segments are
untouched by the message loop. -/
theorem parseLoop_getElem? (log : Output) (segs : List (List Char)) :
    ∀ (L2 : Output) (i : Nat) (e : Nat × OutputType),
      parseLoop log segs = some L2 → log[i]? = some e →
      e.1 ∉ loopIds segs → L2[i]? = some e := by
  induction log, segs using parseLoop.induct with
  | case1 log =>
    intro L2 i e hp hg hid
    simp only [parseLoop] at hp
    injection hp with h
    rw [← h]
    exact hg
  | case2 log s hU =>
    intro L2 i e hp hg hid
    have hres : parseLoop log [s] = some log := by
      simp only [parseLoop]
      cases parseU64 s <;> rfl
    rw [hres] at hp
    injection hp with h
    rw [← h]
    exact hg
  | case3 log s hU s1 ss hstrip =>
    intro L2 i e hp hg hid
    simp only [parseLoop, hU, hstrip] at hp
    exact Option.noConfusion hp
  | case4 log s hU s1 ss t hstrip ih =>
    intro L2 i e hp hg hid
    simp only [parseLoop, hU, hstrip] at hp
    simp only [loopIds, hU] at hid
    exact ih L2 i e hp (pushText_getElem? log t i e hg) hid
  | case5 log s id hU =>
    intro L2 i e hp hg hid
    have hres : parseLoop log [s] = some log := by
      simp only [parseLoop]
      cases parseU64 s <;> rfl
    rw [hres] at hp
    injection hp with h
    rw [← h]
    exact hg
  | case6 log s id hU =>
    intro L2 i e hp hg hid
    simp only [parseLoop, hU, reduceIte] at hp
    simp only [loopIds, hU, reduceIte, List.mem_singleton] at hid
    injection hp with h
    rw [← h]
    exact upsert_getElem? log id _ i e hid hg
  | case7 log s id hU s1 =>
    intro L2 i e hp hg hid
    simp only [parseLoop, hU, reduceIte] at hp
    simp only [loopIds, hU, reduceIte, List.mem_singleton] at hid
    injection hp with h
    rw [← h]
    exact upsert_getElem? log id _ i e hid hg
  | case8 log s id hU s1 s2 =>
    intro L2 i e hp hg hid
    simp only [parseLoop, hU, reduceIte] at hp
    simp only [loopIds, hU, reduceIte, List.mem_singleton] at hid
    injection hp with h
    rw [← h]
    exact upsert_getElem? log id _ i e hid hg
  | case9 log s id hU s1 s2 s3 ss hstrip =>
    intro L2 i e hp hg hid
    simp only [parseLoop, hU, reduceIte, hstrip] at hp
    exact Option.noConfusion hp
  | case10 log s id hU s1 s2 log2 s3 ss t hstrip ih =>
    intro L2 i e hp hg hid
    simp only [parseLoop, hU, reduceIte, hstrip] at hp
    simp only [loopIds, hU, reduceIte, List.mem_cons, not_or] at hid
    exact ih L2 i e hp
      (pushText_getElem? _ t i e (upsert_getElem? log id _ i e hid.1 hg)) hid.2
  | case11 log s id hU s1 ss hne =>
    intro L2 i e hp hg hid
    simp only [parseLoop, hU] at hp
    rw [if_neg hne] at hp
    exact Option.noConfusion hp

theorem stripNewline_size_one (c : Char) (t : List Char) (hc : c.utf8Size = 1) :
    stripNewline (c :: t) = some t := by
  simp only [stripNewline]
  rw [if_pos hc]

theorem stripNewline_size_ne (c : Char) (t : List Char) (hc : ¬c.utf8Size = 1) :
    stripNewline (c :: t) = none := by
  simp only [stripNewline]
  rw [if_neg hc]

theorem pushText_of_ne (log : Output) (t : List Char) (h : t ≠ []) :
    Output.pushText log t = log ++ [(0, OutputType.Text t)] := by
  simp [Output.pushText, h]

/-- One full well-formed message iteration of the loop, with its trailing
segment starting with the encoder's newline terminator. -/
theorem parseLoop_msg_trailing (log : Output) (a d vs tail : List Char)
    (rest : List (List Char)) (k : Nat) (ha : parseU64 a = some k) :
    parseLoop log (a :: OutputType.PROGRESS_BAR_STR :: d :: vs :: ('\n' :: tail) :: rest) =
      parseLoop ((log.upsert k (OutputType.ProgressBar d
        ((parseF32 vs).getD (F32.finite 0)))).pushText tail) rest := by
  simp only [parseLoop, ha, reduceIte, stripNewline_newline]

/-! ### Claim theorems -/

/-- C4 (amended): a non-empty chunk containing no marker character decodes,
on a previously empty log, to exactly one `Text` entry equal to the chunk.
(The original claim also covered the empty chunk, where the code pushes
nothing at all; see the counterexample.) -/
theorem C4_plain_text_passthrough (s : List Char) (hm : MAGIC ∉ s)
    (hne : s ≠ []) :
    Output.parse Output.new s = some [(0, OutputType.Text s)] := by
  unfold Output.parse
  rw [splitOn_eq_single MAGIC s hm]
  simp only [if_neg hne, parseLoop, Output.new, List.nil_append]

/-- C5: if the field after a marker parses as a decimal identity and the next
field is present but is not the literal `progress-bar` tag, the whole decode
call panics (`none`): no partial entry is produced. -/
theorem C5_unknown_tag_panics (L : Output) (chunk : List Char)
    (pre idStr tag : List Char) (segs : List (List Char)) (k : Nat)
    (hsplit : splitOn MAGIC chunk = pre :: idStr :: tag :: segs)
    (hid : parseU64 idStr = some k)
    (htag : tag ≠ OutputType.PROGRESS_BAR_STR) :
    Output.parse L chunk = none := by
  unfold Output.parse
  rw [hsplit]
  simp only [parseLoop, hid]
  rw [if_neg htag]

/-- C6: a progress-bar message whose value field is present but unparseable,
or missing entirely (the chunk ends after the description), still decodes,
upserting a `ProgressBar` entry whose value is `0.0`. -/
theorem C6_value_default (L : Output) (k : Nat) (idStr d v : List Char)
    (hid : parseU64 idStr = some k) (hd : MAGIC ∉ d) (hv : MAGIC ∉ v)
    (hbad : parseF32 v = none) :
    Output.parse L (MAGIC :: idStr ++ MAGIC :: OutputType.PROGRESS_BAR_STR ++
        MAGIC :: d ++ MAGIC :: v) =
      some (L.upsert k (OutputType.ProgressBar d (F32.finite 0))) ∧
    Output.parse L (MAGIC :: idStr ++ MAGIC :: OutputType.PROGRESS_BAR_STR ++
        MAGIC :: d) =
      some (L.upsert k (OutputType.ProgressBar d (F32.finite 0))) := by
  have hm := parseU64_magic_not_mem idStr k hid
  constructor
  · unfold Output.parse
    simp only [List.cons_append, List.append_assoc]
    rw [splitOn_cons_self]
    rw [splitOn_append MAGIC idStr _ hm]
    rw [splitOn_append MAGIC OutputType.PROGRESS_BAR_STR _ (by decide)]
    rw [splitOn_append MAGIC d _ hd]
    rw [splitOn_eq_single MAGIC v hv]
    simp only [parseLoop, hid, reduceIte, hbad, Option.getD_none]
  · unfold Output.parse
    simp only [List.cons_append, List.append_assoc]
    rw [splitOn_cons_self]
    rw [splitOn_append MAGIC idStr _ hm]
    rw [splitOn_append MAGIC OutputType.PROGRESS_BAR_STR _ (by decide)]
    rw [splitOn_eq_single MAGIC d hd]
    simp only [parseLoop, hid, reduceIte]

/-- C10: a progress-bar message truncated right after its tag (description
and value fields both absent) still decodes, upserting a `ProgressBar` entry
with empty description and value `0.0`. -/
theorem C10_missing_description (L : Output) (k : Nat) (idStr : List Char)
    (hid : parseU64 idStr = some k) :
    Output.parse L (MAGIC :: idStr ++ MAGIC :: OutputType.PROGRESS_BAR_STR) =
      some (L.upsert k (OutputType.ProgressBar [] (F32.finite 0))) := by
  have hm := parseU64_magic_not_mem idStr k hid
  unfold Output.parse
  simp only [List.cons_append, List.append_assoc]
  rw [splitOn_cons_self]
  rw [splitOn_append MAGIC idStr _ hm]
  rw [splitOn_eq_single MAGIC OutputType.PROGRESS_BAR_STR (by decide)]
  simp only [parseLoop, hid, reduceIte]

/-- C2: on a log satisfying the data-model invariant for the nonzero identity
`k` (no entry carries `k` yet, as in any reachable state where the first
message is genuinely inserted), decoding two well-formed progress-bar messages
with identity `k` in sequence leaves exactly one entry with identity `k` —
appended at position `L.length` by the first message and still there, with the
second message's description and value, after the second.  The hypothesis on
`v2` is the decimal round-trip property `f32::from_str ∘ f32::to_string = id`,
which holds for every Rust `f32`. -/
theorem C2_identity_upsert (L : Output) (k : Nat) (d1 d2 : List Char)
    (v1 v2 : F32) (hk0 : k ≠ 0) (hk : k < 2 ^ 64) (hL : ∀ e ∈ L, e.1 ≠ k)
    (hd1 : MAGIC ∉ d1) (hd2 : MAGIC ∉ d2)
    (hv2 : parseF32 (f32ToString v2) = some v2) :
    Output.parse L ((OutputType.ProgressBar d1 v1).send k) =
      some (L ++ [(k, OutputType.ProgressBar d1
        ((parseF32 (f32ToString v1)).getD (F32.finite 0)))]) ∧
    Output.parse (L ++ [(k, OutputType.ProgressBar d1
        ((parseF32 (f32ToString v1)).getD (F32.finite 0)))])
        ((OutputType.ProgressBar d2 v2).send k) =
      some (L ++ [(k, OutputType.ProgressBar d2 v2)]) := by
  constructor
  · rw [parse_send_pb L k d1 v1 hk hd1]
    rw [upsert_of_forall_ne L k _ hL]
  · rw [parse_send_pb _ k d2 v2 hk hd2]
    rw [upsert_append_singleton L k _ _ hL]
    rw [hv2]
    rfl

/-- C7 (amended): after every loop iteration — a successful message (the
identity parses and the `progress-bar` message is decoded) or a merely
attempted one (the identity field fails to parse, so no further field of the
message is consumed) — the decoder strips exactly the first byte of the next
marker-delimited field, whatever that byte is (on a conforming stream it is
the message's `'\n'` terminator; on other streams it is a content byte), and
appends the remainder as a `Text` entry when non-empty.  When that trailing
field is empty, or its first character occupies more than one byte, the byte
slicing panics instead of stripping anything.  (The original claim said only
newline bytes, never content bytes, are stripped, and that the stripping
never faults; see the counterexample.) -/
theorem C7_strip_first_byte (L : Output) (k : Nat)
    (idStr idBad d v t : List Char) (c : Char)
    (hid : parseU64 idStr = some k) (hbad : parseU64 idBad = none)
    (hib : MAGIC ∉ idBad) (hd : MAGIC ∉ d) (hv : MAGIC ∉ v)
    (ht : MAGIC ∉ c :: t) :
    (c.utf8Size = 1 →
      Output.parse L (MAGIC :: idStr ++ MAGIC :: OutputType.PROGRESS_BAR_STR ++
          MAGIC :: d ++ MAGIC :: v ++ MAGIC :: c :: t) =
        some ((L.upsert k (OutputType.ProgressBar d
          ((parseF32 v).getD (F32.finite 0)))).pushText t)) ∧
    (¬c.utf8Size = 1 →
      Output.parse L (MAGIC :: idStr ++ MAGIC :: OutputType.PROGRESS_BAR_STR ++
          MAGIC :: d ++ MAGIC :: v ++ MAGIC :: c :: t) = none) ∧
    Output.parse L (MAGIC :: idStr ++ MAGIC :: OutputType.PROGRESS_BAR_STR ++
        MAGIC :: d ++ MAGIC :: v ++ [MAGIC]) = none ∧
    (c.utf8Size = 1 →
      Output.parse L (MAGIC :: idBad ++ MAGIC :: c :: t) =
        some (L.pushText t)) ∧
    (¬c.utf8Size = 1 →
      Output.parse L (MAGIC :: idBad ++ MAGIC :: c :: t) = none) ∧
    Output.parse L (MAGIC :: idBad ++ [MAGIC]) = none := by
  have hm := parseU64_magic_not_mem idStr k hid
  refine ⟨fun hc => ?_, fun hc => ?_, ?_, fun hc => ?_, fun hc => ?_, ?_⟩
  · unfold Output.parse
    simp only [List.cons_append, List.append_assoc]
    rw [splitOn_cons_self]
    rw [splitOn_append MAGIC idStr _ hm]
    rw [splitOn_append MAGIC OutputType.PROGRESS_BAR_STR _ (by decide)]
    rw [splitOn_append MAGIC d _ hd]
    rw [splitOn_append MAGIC v _ hv]
    rw [splitOn_eq_single MAGIC (c :: t) ht]
    simp only [parseLoop, hid, reduceIte, stripNewline_size_one c t hc]
  · unfold Output.parse
    simp only [List.cons_append, List.append_assoc]
    rw [splitOn_cons_self]
    rw [splitOn_append MAGIC idStr _ hm]
    rw [splitOn_append MAGIC OutputType.PROGRESS_BAR_STR _ (by decide)]
    rw [splitOn_append MAGIC d _ hd]
    rw [splitOn_append MAGIC v _ hv]
    rw [splitOn_eq_single MAGIC (c :: t) ht]
    simp only [parseLoop, hid, reduceIte, stripNewline_size_ne c t hc]
  · unfold Output.parse
    simp only [List.cons_append, List.append_assoc]
    rw [splitOn_cons_self]
    rw [splitOn_append MAGIC idStr _ hm]
    rw [splitOn_append MAGIC OutputType.PROGRESS_BAR_STR _ (by decide)]
    rw [splitOn_append MAGIC d _ hd]
    rw [splitOn_append MAGIC v _ hv]
    rw [show splitOn MAGIC [] = [[]] from rfl]
    simp only [parseLoop, hid, reduceIte, stripNewline]
  · unfold Output.parse
    simp only [List.cons_append, List.append_assoc]
    rw [splitOn_cons_self]
    rw [splitOn_append MAGIC idBad _ hib]
    rw [splitOn_eq_single MAGIC (c :: t) ht]
    simp only [parseLoop, hbad, reduceIte, stripNewline_size_one c t hc]
  · unfold Output.parse
    simp only [List.cons_append, List.append_assoc]
    rw [splitOn_cons_self]
    rw [splitOn_append MAGIC idBad _ hib]
    rw [splitOn_eq_single MAGIC (c :: t) ht]
    simp only [parseLoop, hbad, reduceIte, stripNewline_size_ne c t hc]
  · unfold Output.parse
    simp only [List.cons_append, List.append_assoc]
    rw [splitOn_cons_self]
    rw [splitOn_append MAGIC idBad _ hib]
    rw [show splitOn MAGIC [] = [[]] from rfl]
    simp only [parseLoop, hbad, reduceIte, stripNewline]

/-- C8 (amended): an `Output::parse` call leaves every existing entry — in
particular every `Text` entry — unchanged at its position, provided no
message decoded from the chunk carries that entry's identity.  Since `Text`
entries are created with identity `0`, this is Text-immutability for every
chunk that upserts no identity-`0` message; a progress-bar message that does
carry identity `0` overwrites the first identity-`0` entry, which is in
general a `Text` entry (see the counterexample). -/
theorem C8_entries_preserved (L : Output) (chunk : List Char) (L2 : Output)
    (i : Nat) (e : Nat × OutputType) (hp : Output.parse L chunk = some L2)
    (hg : L[i]? = some e) (hid : e.1 ∉ parseIds chunk) :
    L2[i]? = some e := by
  unfold Output.parse at hp
  unfold parseIds at hid
  cases hsplit : splitOn MAGIC chunk with
  | nil =>
    rw [hsplit] at hp
    have hp2 : some L = some L2 := hp
    injection hp2 with h
    rw [← h]
    exact hg
  | cons first rest =>
    rw [hsplit] at hp hid
    have hp2 : parseLoop
        (if first = [] then L else L ++ [(0, OutputType.Text first)]) rest =
        some L2 := hp
    have hid2 : e.1 ∉ loopIds rest := hid
    apply parseLoop_getElem? _ rest L2 i e hp2 _ hid2
    by_cases hfi : first = []
    · rw [if_pos hfi]
      exact hg
    · rw [if_neg hfi]
      exact getElem?_append_of_some L _ i e hg

/-- C9: a chunk of plain text, then a well-formed progress-bar message with
nonzero identity `k`, then more plain text decodes (on an empty log) to three
entries in exactly that order; a later update to identity `k` rewrites the
middle entry in place, leaving positions and the two `Text` entries
unchanged. -/
theorem C9_interleaving_order (k : Nat) (t1 t2 d d2 : List Char) (v v2 : F32)
    (hk0 : k ≠ 0) (hk : k < 2 ^ 64) (ht1m : MAGIC ∉ t1) (ht2m : MAGIC ∉ t2)
    (hd : MAGIC ∉ d) (hd2 : MAGIC ∉ d2) (ht1 : t1 ≠ []) (ht2 : t2 ≠ []) :
    Output.parse Output.new (t1 ++ (OutputType.ProgressBar d v).send k ++ t2) =
      some [(0, OutputType.Text t1),
        (k, OutputType.ProgressBar d ((parseF32 (f32ToString v)).getD (F32.finite 0))),
        (0, OutputType.Text t2)] ∧
    Output.parse [(0, OutputType.Text t1),
        (k, OutputType.ProgressBar d ((parseF32 (f32ToString v)).getD (F32.finite 0))),
        (0, OutputType.Text t2)] ((OutputType.ProgressBar d2 v2).send k) =
      some [(0, OutputType.Text t1),
        (k, OutputType.ProgressBar d2 ((parseF32 (f32ToString v2)).getD (F32.finite 0))),
        (0, OutputType.Text t2)] := by
  have hz : (0 : Nat) ≠ k := fun h => hk0 h.symm
  constructor
  · unfold OutputType.send send_message Output.parse
    simp only [List.foldr, List.cons_append, List.append_assoc, List.nil_append]
    rw [splitOn_append MAGIC t1 _ ht1m]
    rw [splitOn_append MAGIC (natToString k) _ (magic_not_mem_natToString k)]
    rw [splitOn_append MAGIC OutputType.PROGRESS_BAR_STR _ (by decide)]
    rw [splitOn_append MAGIC d _ hd]
    rw [splitOn_append MAGIC (f32ToString v) _ (magic_not_mem_f32ToString v)]
    rw [splitOn_eq_single MAGIC ('\n' :: t2) (by
      intro hmem
      rcases List.mem_cons.mp hmem with h1 | h1
      · exact absurd h1 (by decide)
      · exact ht2m h1)]
    show parseLoop
        (if t1 = [] then Output.new else Output.new ++ [(0, OutputType.Text t1)])
        [natToString k, OutputType.PROGRESS_BAR_STR, d, f32ToString v, '\n' :: t2] = _
    rw [if_neg ht1]
    simp only [Output.new, List.nil_append]
    rw [parseLoop_msg_trailing _ (natToString k) d (f32ToString v) t2 []
      k (parseU64_natToString k hk)]
    rw [upsert_of_forall_ne _ k _ (by
      intro e he
      rcases List.mem_cons.mp he with h1 | h1
      · rw [h1]; exact hz
      · simp at h1)]
    rw [pushText_of_ne _ t2 ht2]
    simp [parseLoop]
  · rw [parse_send_pb _ k d2 v2 hk hd2]
    simp only [Output.upsert, eq_self_iff_true, if_true, if_neg hz]

section

attribute [local semireducible] Rat.mul Rat.add Rat.inv Rat.sub

/-- C1: encoding the progress message `(id = 42, desc = "Building",
value = 0.37)` with `OutputType::send` and decoding the produced byte stream
with `Output::parse` on an empty log yields exactly the entry
`(42, ProgressBar("Building", 0.37))` and nothing else. -/
theorem C1_round_trip :
    Output.parse Output.new
        ((OutputType.ProgressBar "Building".data (F32.finite ((37 : ℚ) / 100))).send 42) =
      some [(42, OutputType.ProgressBar "Building".data (F32.finite ((37 : ℚ) / 100)))] := by
  decide

/-- C3: the chunk made of two marker characters contains no tag field at all
(its identity field is empty and never reaches the tag dispatcher), yet
`Output::parse` panics: the trailing segment between the two markers is empty
and `&text[1..]` is an out-of-bounds byte slice.  This contradicts the claim
that decoding without an unknown tag never crashes. -/
theorem C3_panic_on_marker_pair :
    Output.parse Output.new [MAGIC, MAGIC] = none := by
  decide

/-- C4 (counterexample): the empty chunk contains zero marker characters, but
parsing it on an empty log produces no entry at all — not one `Text` entry
equal to the input as the claim states. -/
theorem C4_empty_chunk_counterexample :
    Output.parse Output.new [] = some [] ∧
    Output.parse Output.new [] ≠ some [(0, OutputType.Text [])] := by
  decide

/-- C7 (counterexample): after the well-formed message `…MAGIC "1" MAGIC` the
trailing field is `"Xab"`, whose first byte `'X'` is a content byte, not a
newline; the decoder still strips it and stores `Text "ab"`, falsifying
"exactly one leading newline byte … never content bytes". -/
theorem C7_content_byte_stripped_counterexample :
    Output.parse Output.new
        [MAGIC, '7', MAGIC, 'p', 'r', 'o', 'g', 'r', 'e', 's', 's', '-', 'b', 'a', 'r',
         MAGIC, 'd', MAGIC, '1', MAGIC, 'X', 'a', 'b'] =
      some [(7, OutputType.ProgressBar ['d'] (F32.finite 1)),
            (0, OutputType.Text ['a', 'b'])] := by
  decide

/-- C8 (counterexample): a progress-bar message carrying identity `0` — which
the claim explicitly includes — overwrites the payload of the existing `Text`
entry `(0, "hello")` in place, so `Text` entries are not unconditionally
immutable. -/
theorem C8_text_overwritten_counterexample :
    Output.parse [(0, OutputType.Text "hello".data)]
        ((OutputType.ProgressBar "d".data (F32.finite 1)).send 0) =
      some [(0, OutputType.ProgressBar "d".data (F32.finite 1))] := by
  decide

theorem C2_identity_upsert_witness :
    Output.parse [(7, OutputType.Text "z".data)]
        ((OutputType.ProgressBar "a".data (F32.finite 1)).send 5) =
      some ([(7, OutputType.Text "z".data)] ++ [(5, OutputType.ProgressBar "a".data
        ((parseF32 (f32ToString (F32.finite 1))).getD (F32.finite 0)))]) ∧
    Output.parse ([(7, OutputType.Text "z".data)] ++ [(5, OutputType.ProgressBar "a".data
        ((parseF32 (f32ToString (F32.finite 1))).getD (F32.finite 0)))])
        ((OutputType.ProgressBar "b".data (F32.finite ((1 : ℚ) / 2))).send 5) =
      some ([(7, OutputType.Text "z".data)] ++
        [(5, OutputType.ProgressBar "b".data (F32.finite ((1 : ℚ) / 2)))]) :=
  C2_identity_upsert [(7, OutputType.Text "z".data)] 5 "a".data "b".data
    (F32.finite 1) (F32.finite ((1 : ℚ) / 2)) (by decide) (by decide)
    (by decide) (by decide) (by decide) (by decide)

theorem C4_plain_text_passthrough_witness :
    Output.parse Output.new "hi".data = some [(0, OutputType.Text "hi".data)] :=
  C4_plain_text_passthrough "hi".data (by decide) (by decide)

theorem C5_unknown_tag_panics_witness :
    Output.parse Output.new [MAGIC, '4', '2', MAGIC, 'x'] = none :=
  C5_unknown_tag_panics Output.new [MAGIC, '4', '2', MAGIC, 'x']
    [] ['4', '2'] ['x'] [] 42 (by decide) (by decide) (by decide)

theorem C6_value_default_witness :
    Output.parse Output.new (MAGIC :: "3".data ++ MAGIC :: OutputType.PROGRESS_BAR_STR ++
        MAGIC :: "pct".data ++ MAGIC :: "oops".data) =
      some (Output.new.upsert 3 (OutputType.ProgressBar "pct".data (F32.finite 0))) ∧
    Output.parse Output.new (MAGIC :: "3".data ++ MAGIC :: OutputType.PROGRESS_BAR_STR ++
        MAGIC :: "pct".data) =
      some (Output.new.upsert 3 (OutputType.ProgressBar "pct".data (F32.finite 0))) :=
  C6_value_default Output.new 3 "3".data "pct".data "oops".data
    (by decide) (by decide) (by decide) (by decide)

theorem C7_strip_first_byte_witness :
    Output.parse Output.new (MAGIC :: "5".data ++ MAGIC :: OutputType.PROGRESS_BAR_STR ++
        MAGIC :: "d".data ++ MAGIC :: "1".data ++ MAGIC :: 'X' :: "ab".data) =
      some ((Output.new.upsert 5 (OutputType.ProgressBar "d".data
        ((parseF32 "1".data).getD (F32.finite 0)))).pushText "ab".data) ∧
    Output.parse Output.new (MAGIC :: "5".data ++ MAGIC :: OutputType.PROGRESS_BAR_STR ++
        MAGIC :: "d".data ++ MAGIC :: "1".data ++ MAGIC :: 'é' :: []) = none ∧
    Output.parse Output.new (MAGIC :: "5".data ++ MAGIC :: OutputType.PROGRESS_BAR_STR ++
        MAGIC :: "d".data ++ MAGIC :: "1".data ++ [MAGIC]) = none ∧
    Output.parse Output.new (MAGIC :: "z".data ++ MAGIC :: 'N' :: "hi".data) =
      some (Output.new.pushText "hi".data) ∧
    Output.parse Output.new (MAGIC :: "z".data ++ MAGIC :: 'é' :: []) = none ∧
    Output.parse Output.new (MAGIC :: "z".data ++ [MAGIC]) = none := by
  refine ⟨?_, ?_, ?_, ?_, ?_, ?_⟩
  · exact (C7_strip_first_byte Output.new 5 "5".data "z".data "d".data "1".data
      "ab".data 'X' (by decide) (by decide) (by decide) (by decide) (by decide)
      (by decide)).1 (by decide)
  · exact (C7_strip_first_byte Output.new 5 "5".data "z".data "d".data "1".data
      [] 'é' (by decide) (by decide) (by decide) (by decide) (by decide)
      (by decide)).2.1 (by decide)
  · exact (C7_strip_first_byte Output.new 5 "5".data "z".data "d".data "1".data
      [] 'é' (by decide) (by decide) (by decide) (by decide) (by decide)
      (by decide)).2.2.1
  · exact (C7_strip_first_byte Output.new 5 "5".data "z".data "d".data "1".data
      "hi".data 'N' (by decide) (by decide) (by decide) (by decide) (by decide)
      (by decide)).2.2.2.1 (by decide)
  · exact (C7_strip_first_byte Output.new 5 "5".data "z".data "d".data "1".data
      [] 'é' (by decide) (by decide) (by decide) (by decide) (by decide)
      (by decide)).2.2.2.2.1 (by decide)
  · exact (C7_strip_first_byte Output.new 5 "5".data "z".data "d".data "1".data
      [] 'é' (by decide) (by decide) (by decide) (by decide) (by decide)
      (by decide)).2.2.2.2.2

theorem C8_entries_preserved_witness :
    [(0, OutputType.Text "h".data), (0, OutputType.Text "x".data)][0]? =
      some (0, OutputType.Text "h".data) :=
  C8_entries_preserved [(0, OutputType.Text "h".data)] "x".data
    [(0, OutputType.Text "h".data), (0, OutputType.Text "x".data)] 0
    (0, OutputType.Text "h".data) (by decide) (by decide) (by decide)

theorem C9_interleaving_order_witness :
    Output.parse Output.new ("A".data ++ (OutputType.ProgressBar "d".data (F32.finite 0)).send 5 ++ "B".data) =
      some [(0, OutputType.Text "A".data),
        (5, OutputType.ProgressBar "d".data
          ((parseF32 (f32ToString (F32.finite 0))).getD (F32.finite 0))),
        (0, OutputType.Text "B".data)] ∧
    Output.parse [(0, OutputType.Text "A".data),
        (5, OutputType.ProgressBar "d".data
          ((parseF32 (f32ToString (F32.finite 0))).getD (F32.finite 0))),
        (0, OutputType.Text "B".data)]
        ((OutputType.ProgressBar "e".data (F32.finite 1)).send 5) =
      some [(0, OutputType.Text "A".data),
        (5, OutputType.ProgressBar "e".data
          ((parseF32 (f32ToString (F32.finite 1))).getD (F32.finite 0))),
        (0, OutputType.Text "B".data)] :=
  C9_interleaving_order 5 "A".data "B".data "d".data "e".data
    (F32.finite 0) (F32.finite 1) (by decide) (by decide) (by decide)
    (by decide) (by decide) (by decide) (by decide) (by decide)

theorem C10_missing_description_witness :
    Output.parse Output.new (MAGIC :: "9".data ++ MAGIC :: OutputType.PROGRESS_BAR_STR) =
      some (Output.new.upsert 9 (OutputType.ProgressBar [] (F32.finite 0))) :=
  C10_missing_description Output.new 9 "9".data (by decide)

end
